import Mathlib

/-!
Shallow embedding of `src/check_sat_via_regex_match.py`.

The Python module compiles a CNF formula into a regular-expression pattern
with capturing groups and back-references, and decides satisfaction of a
candidate assignment by matching a probe string against that pattern.

Embedding conventions:
* Python strings are Lean `String`s; `sep.join(parts)` is `pyJoin`,
  string repetition `s * n` is `strMul`, and single-character
  `str.replace` is `pyReplaceChar`.
* `construct_pattern` returns `Option String`: the Python function assigns
  its local variable `pattern` only inside the `for clause in clauses`
  loop, so an empty clause list raises `UnboundLocalError`; `none` models
  that failure and `some` the returned pattern text.
* The compiled pattern (`re.compile` of the text, then `re.Pattern.match`)
  is modelled by the syntax tree `patternRegex num_vars clauses` — whose
  shape corresponds exactly to the emitted text, see the theorem
  `construct_pattern_eq_render` — together with a backtracking matcher
  `mmatch` in continuation-passing style: a match is reported iff some
  backtracking path succeeds, which is exactly the boolean outcome
  (`is not None`) of `re.match`.  `re.match` anchors at the start of the
  string only, so the leading `^` of the text is implicit in `reMatch`,
  and no end-of-string anchor is applied.
-/

/-- Python `sep.join(parts)`. -/
def pyJoin (sep : String) : List String → String
  | [] => ""
  | [p] => p
  | p :: q :: ps => p ++ sep ++ pyJoin sep (q :: ps)

/-- Python string repetition `s * n` for a nonnegative count. -/
def strMul (s : String) : Nat → String
  | 0 => ""
  | n + 1 => s ++ strMul s n

/-- Python `str.replace(old, new)` in the single-character case used by the
source (`.replace("0", "F")`, `.replace("1", "T")`). -/
def pyReplaceChar (s : String) (a b : Char) : String :=
  ⟨s.data.map fun c => if c = a then b else c⟩

/-- Binary digits of `n`, most significant first and empty for `0`,
computed with explicit fuel so that the definition reduces by `rfl`;
`natBitsCore f n` is the digit list whenever `n ≤ f`. -/
def natBitsCore : Nat → Nat → List Char
  | 0, _ => []
  | f + 1, n =>
    if n = 0 then []
    else natBitsCore f (n / 2) ++ [if n % 2 = 1 then '1' else '0']

/-- Binary digits of `n`, most significant first (empty for `0`). -/
def natBits (n : Nat) : List Char := natBitsCore n n

/-- Python `int_to_binary_string`, i.e. `format(i, f"0{num_bits}b")` for a
nonnegative `i`: the binary representation of `i` (at least one digit),
left-padded with `'0'` to width `num_bits`, and not truncated when it is
longer than `num_bits`. -/
def int_to_binary_string (i num_bits : Nat) : String :=
  let s : List Char := if i = 0 then ['0'] else natBits i
  ⟨List.replicate (num_bits - s.length) '0' ++ s⟩

/-- Python `enumerate_assignments`: for each `i` in `range(2 ** num_vars)`,
the binary string of `i` with `"0"` replaced by `"F"` and `"1"` by `"T"`. -/
def enumerate_assignments (num_vars : Nat) : List String :=
  (List.range (2 ^ num_vars)).map fun i =>
    pyReplaceChar (pyReplaceChar (int_to_binary_string i num_vars) '0' 'F') '1' 'T'

/-- Reference form of the padded binary digits: the `n`-bit binary
encoding of `i`, most significant bit first. -/
def encodeBits : Nat → Nat → List Char
  | 0, _ => []
  | n + 1, i => encodeBits n (i / 2) ++ [if i % 2 = 1 then '1' else '0']

/-- The composite of the two character replacements of
`enumerate_assignments` on binary digits. -/
def digitFT (c : Char) : Char :=
  if (if c = '0' then 'F' else c) = '1' then 'T' else if c = '0' then 'F' else c

/-- Reference form of one enumerated assignment: the `n`-bit binary
encoding of `i` written over `{F, T}`. -/
def ftBits (n i : Nat) : List Char :=
  (encodeBits n i).map digitFT

/-- Decode an `F`/`T` character string as a binary number, `'T'` = 1 and
the most significant bit first. -/
def decodeFT (w : List Char) : Nat :=
  w.foldl (fun a c => 2 * a + (if c = 'T' then 1 else 0)) 0

/-- One alternative of a clause group: Python appends `rf"\{abs(literal)}T"`
for a negative literal and `rf"F\{literal}"` otherwise. -/
def clauseTerm (literal : Int) : String :=
  if literal < 0 then "\\" ++ toString literal.natAbs ++ "T"
  else "F\\" ++ toString literal

/-- The non-capturing group text emitted for one clause,
Python `rf"(?:{'|'.join(terms)})"`. -/
def clause_pattern (clause : List Int) : String :=
  "(?:" ++ pyJoin "|" (clause.map clauseTerm) ++ ")"

/-- The text assembled by the assignment to `pattern` inside the Python
loop, given the clause-pattern list built so far; the returned pattern is
the one from the final iteration, where the list is complete. -/
def patternText (num_vars : Nat) (clause_patterns : List String) : String :=
  "^" ++ strMul "(F|T)" num_vars ++ ";"
    ++ ("(?=" ++ pyJoin "," ((List.range clause_patterns.length).map fun _ => "FT") ++ ")")
    ++ pyJoin "," clause_patterns

/-- Python `construct_pattern`.  The local `pattern` is assigned only
inside the `for clause in clauses` loop, so on an empty clause list the
final `return pattern` raises `UnboundLocalError`, modelled by `none`;
otherwise the text from the last iteration is returned. -/
def construct_pattern (num_vars : Nat) (clauses : List (List Int)) : Option String :=
  match clauses with
  | [] => none
  | _ :: _ => some (patternText num_vars (clauses.map clause_pattern))

/-- Syntax of the regular-expression fragment the generated patterns use:
literal characters, concatenation, ordered alternation, numbered capturing
groups, non-capturing groups, numbered back-references, and zero-width
lookahead.  No repetition operators occur in the generated patterns. -/
inductive Regex : Type where
  | epsilon : Regex
  | char : Char → Regex
  | cat : Regex → Regex → Regex
  | alt : Regex → Regex → Regex
  | group : Nat → Regex → Regex
  | noncap : Regex → Regex
  | backref : Nat → Regex
  | look : Regex → Regex

/-- Capture environment of a match in progress: group number to captured
text, `none` while the group has not participated. -/
def Captures : Type := Nat → Option (List Char)

/-- No group has captured yet. -/
def Captures.empty : Captures := fun _ => none

/-- Record the text captured by group `i`. -/
def Captures.set (caps : Captures) (i : Nat) (w : List Char) : Captures :=
  fun j => if j = i then some w else caps j

/-- Backtracking matcher in continuation-passing style, the semantics of a
back-reference regex engine on the star-free fragment above.  The
continuation is invoked on the remaining input and the capture environment
for each way the expression can match a prefix; the overall result is
`true` iff some backtracking path makes the continuation succeed — exactly
the success/failure outcome of Python's backtracking engine.  A
back-reference to a group that has not captured fails, a lookahead matches
its body without consuming input, and a capturing group records the
consumed prefix. -/
def mmatch : Regex → List Char → Captures → (List Char → Captures → Bool) → Bool
  | .epsilon, s, caps, k => k s caps
  | .char c, s, caps, k =>
    match s with
    | [] => false
    | d :: rest => if d = c then k rest caps else false
  | .cat r₁ r₂, s, caps, k =>
    mmatch r₁ s caps fun s' caps' => mmatch r₂ s' caps' k
  | .alt r₁ r₂, s, caps, k => mmatch r₁ s caps k || mmatch r₂ s caps k
  | .group i r, s, caps, k =>
    mmatch r s caps fun s' caps' =>
      k s' (caps'.set i (s.take (s.length - s'.length)))
  | .noncap r, s, caps, k => mmatch r s caps k
  | .backref i, s, caps, k =>
    match caps i with
    | none => false
    | some w => if w.isPrefixOf s then k (List.drop w.length s) caps else false
  | .look r, s, caps, k => mmatch r s caps fun _ caps' => k s caps'

/-- Python `regex.match(s) is not None` for a compiled pattern of our
fragment: `re.match` anchors at the start of the string (the role of the
leading `^` of the generated text) and succeeds on any matching prefix —
no end-of-string anchor is applied. -/
def reMatch (r : Regex) (s : String) : Bool :=
  mmatch r s.data Captures.empty fun _ _ => true

/-- Python `check_sat`: build the probe string
`f"{assignment};" + ",".join(["FT"] * num_clauses)` and report whether the
compiled pattern matches it. -/
def check_sat (assignment : String) (regex : Regex) (num_clauses : Nat) : Bool :=
  reMatch regex (assignment ++ ";" ++ pyJoin "," (List.replicate num_clauses "FT"))

/-- The `num_vars` capturing groups `(F|T)(F|T)...` of the pattern,
numbered consecutively from `j` (Python numbers the groups `1, ..., n` in
order of their opening parentheses). -/
def assignGroups : Nat → Nat → Regex
  | _, 0 => .epsilon
  | j, n + 1 =>
    .cat (.group j (.alt (.char 'F') (.char 'T'))) (assignGroups (j + 1) n)

/-- Concatenation of literal characters as a regex. -/
def strR : List Char → Regex
  | [] => .epsilon
  | c :: cs => .cat (.char c) (strR cs)

/-- Characters of the marker block `FT,FT,...,FT` with `c` markers. -/
def markerChars : Nat → List Char
  | 0 => []
  | 1 => ['F', 'T']
  | n + 2 => 'F' :: 'T' :: ',' :: markerChars (n + 1)

/-- Syntax tree of one clause alternative (`clauseTerm` as a regex). -/
def termRegex (literal : Int) : Regex :=
  if literal < 0 then .cat (.backref literal.natAbs) (.char 'T')
  else .cat (.char 'F') (.backref literal.toNat)

/-- Ordered alternation of a list, the `|`-join inside a clause group
(an empty join is the empty pattern). -/
def altList : List Regex → Regex
  | [] => .epsilon
  | [r] => r
  | r :: r' :: rs => .alt r (altList (r' :: rs))

/-- Syntax tree of one clause group `(?:...)`. -/
def clauseRegex (clause : List Int) : Regex :=
  .noncap (altList (clause.map termRegex))

/-- The clause groups joined by literal commas. -/
def clausesRegex : List (List Int) → Regex
  | [] => .epsilon
  | [cl] => clauseRegex cl
  | cl :: cl' :: cls =>
    .cat (clauseRegex cl) (.cat (.char ',') (clausesRegex (cl' :: cls)))

/-- Syntax tree of the full pattern emitted by `construct_pattern` (without
the leading `^`, which `reMatch` makes implicit); the theorem
`construct_pattern_eq_render` identifies it with the emitted text. -/
def patternRegex (num_vars : Nat) (clauses : List (List Int)) : Regex :=
  .cat (assignGroups 1 num_vars)
    (.cat (.char ';')
      (.cat (.look (strR (markerChars clauses.length)))
        (clausesRegex clauses)))

/-- Pattern text denoted by a syntax tree, in Python `re` syntax (group
numbers are positional and therefore not printed). -/
def render : Regex → String
  | .epsilon => ""
  | .char c => String.singleton c
  | .cat r₁ r₂ => render r₁ ++ render r₂
  | .alt r₁ r₂ => render r₁ ++ "|" ++ render r₂
  | .group _ r => "(" ++ render r ++ ")"
  | .noncap r => "(?:" ++ render r ++ ")"
  | .backref i => "\\" ++ toString i
  | .look r => "(?=" ++ render r ++ ")"

/-- Modelled from the spec: truth of one literal under the assignment
characters `w` — variable `v` is true iff position `v - 1` of the
assignment holds `'T'`, and a negative literal is true iff its variable is
false. -/
def literalTrue (w : List Char) (literal : Int) : Bool :=
  if literal < 0 then decide (w.getD (literal.natAbs - 1) 'F' = 'F')
  else decide (w.getD (literal.natAbs - 1) 'F' = 'T')

/-- Modelled from the spec: brute-force CNF evaluation — every clause must
contain at least one literal that is true under the assignment. -/
def brute_force_evaluate (clauses : List (List Int)) (w : List Char) : Bool :=
  clauses.all fun cl => cl.any (literalTrue w)

/-- The Formula invariant from the spec: `num_vars ≥ 1`, a non-empty list
of non-empty clauses, every literal nonzero with variable index at most
`num_vars`. -/
def WFFormula (num_vars : Nat) (clauses : List (List Int)) : Prop :=
  1 ≤ num_vars ∧ clauses ≠ [] ∧
    ∀ cl ∈ clauses, cl ≠ [] ∧ ∀ l ∈ cl, 1 ≤ l.natAbs ∧ l.natAbs ≤ num_vars

instance (num_vars : Nat) (clauses : List (List Int)) :
    Decidable (WFFormula num_vars clauses) := by
  unfold WFFormula
  infer_instance

/-- Capture environment after the `(F|T)` groups numbered `j, j + 1, ...`
have each captured one character of `u`. -/
def extCaps (caps : Captures) (j : Nat) (u : List Char) : Captures :=
  fun i => if j ≤ i ∧ i < j + u.length then some [u.getD (i - j) 'F'] else caps i

/-- Modelled from the spec (reference text of claim C7): `^`, then
`num_vars` copies of `(F|T)` and a literal `;`, then a lookahead holding
`len(clauses)` comma-joined copies of `FT`, then one non-capturing group
per clause joined by literal commas, where a positive literal `v`
contributes `F\v` and a negative literal `v` contributes `\vT`, in the
original clause and literal order. -/
def spec_pattern (num_vars : Nat) (clauses : List (List Int)) : String :=
  "^" ++ String.join (List.replicate num_vars "(F|T)") ++ ";"
    ++ ("(?=" ++ pyJoin "," (List.replicate clauses.length "FT") ++ ")")
    ++ pyJoin "," (clauses.map fun cl =>
        "(?:" ++ pyJoin "|" (cl.map fun l =>
            if l < 0 then "\\" ++ toString l.natAbs ++ "T"
            else "F\\" ++ toString l) ++ ")")

/-- Two strings with the same character data are equal. -/
theorem strExt {a b : String} (h : a.data = b.data) : a = b := by
  cases a; cases b; exact congrArg String.mk h

/-- Characters of the comma-joined marker block built by `check_sat`. -/
theorem data_pyJoin_replicate_FT :
    ∀ c : Nat, (pyJoin "," (List.replicate c "FT")).data = markerChars c
  | 0 => rfl
  | 1 => rfl
  | c + 2 => by
    have ih := data_pyJoin_replicate_FT (c + 1)
    rw [List.replicate_succ, List.replicate_succ]
    show ("FT" ++ "," ++ pyJoin "," ("FT" :: List.replicate c "FT")).data
        = markerChars (c + 2)
    rw [String.data_append, String.data_append, ← List.replicate_succ, ih]
    rfl

/-- Characters of the probe string built by `check_sat`. -/
theorem probe_data (A : String) (c : Nat) :
    (A ++ ";" ++ pyJoin "," (List.replicate c "FT")).data
      = A.data ++ ';' :: markerChars c := by
  rw [String.data_append, String.data_append, data_pyJoin_replicate_FT]
  have h : (";" : String).data = [';'] := rfl
  rw [h, List.append_assoc]
  rfl

/-- Extending the capture environment with no groups changes nothing. -/
theorem extCaps_nil (caps : Captures) (j : Nat) : extCaps caps j [] = caps := by
  funext i
  show (if j ≤ i ∧ i < j + ([] : List Char).length then some [([] : List Char).getD (i - j) 'F']
        else caps i) = caps i
  rw [if_neg]
  rintro ⟨h1, h2⟩
  simp only [List.length_nil] at h2
  omega

/-- Peeling one captured character off the front of the extension. -/
theorem extCaps_cons (caps : Captures) (j : Nat) (c : Char) (u : List Char) :
    extCaps (caps.set j [c]) (j + 1) u = extCaps caps j (c :: u) := by
  funext i
  show (if j + 1 ≤ i ∧ i < j + 1 + u.length then some [u.getD (i - (j + 1)) 'F']
        else (caps.set j [c]) i)
      = if j ≤ i ∧ i < j + (c :: u).length then some [(c :: u).getD (i - j) 'F'] else caps i
  simp only [List.length_cons]
  by_cases h1 : j + 1 ≤ i ∧ i < j + 1 + u.length
  · rw [if_pos h1, if_pos (by omega)]
    have h2 : i - j = (i - (j + 1)) + 1 := by omega
    rw [h2, List.getD_cons_succ]
  · rw [if_neg h1]
    by_cases h2 : i = j
    · subst h2
      rw [if_pos (by omega)]
      simp [Captures.set, Nat.sub_self]
    · have h3 : ¬ (j ≤ i ∧ i < j + (u.length + 1)) := by omega
      rw [if_neg h3]
      simp [Captures.set, h2]

/-- Matching a literal string: succeeds exactly on inputs having it as a
prefix, consuming it and leaving the captures unchanged. -/
theorem mmatch_strR :
    ∀ (u s : List Char) (caps : Captures) (k : List Char → Captures → Bool),
    mmatch (strR u) s caps k
      = if u.isPrefixOf s then k (s.drop u.length) caps else false
  | [], s, caps, k => by simp [strR, mmatch, List.isPrefixOf]
  | c :: u', [], caps, k => by simp [strR, mmatch, List.isPrefixOf]
  | c :: u', d :: s', caps, k => by
    have ih := mmatch_strR u' s' caps k
    show (if d = c then mmatch (strR u') s' caps k else false) = _
    by_cases h : d = c
    · subst h
      rw [if_pos rfl, ih]
      simp [List.isPrefixOf, List.drop_succ_cons]
    · rw [if_neg h]
      have hbeq : (c == d) = false := by
        simp [beq_iff_eq]
        exact fun hcd => h hcd.symm
      simp [List.isPrefixOf, hbeq]

/-- Unfolding one `(F|T)` capture group on a non-empty input: the group
matches iff the first character is `F` or `T`, capturing it. -/
theorem mmatch_assignGroups_cons (j n : Nat) (c : Char) (s' : List Char)
    (caps : Captures) (k : List Char → Captures → Bool) :
    mmatch (assignGroups j (n + 1)) (c :: s') caps k
      = ((if c = 'F' then
            mmatch (assignGroups (j + 1) n) s' (caps.set j [c]) k else false)
         || (if c = 'T' then
            mmatch (assignGroups (j + 1) n) s' (caps.set j [c]) k else false)) := by
  have e1 : s'.length + 1 - s'.length = 1 := by omega
  simp only [assignGroups, mmatch, List.length_cons, e1, List.take_succ_cons,
    List.take_zero]

/-- A non-empty block of capture groups fails on empty input. -/
theorem mmatch_assignGroups_nil (j n : Nat) (caps : Captures)
    (k : List Char → Captures → Bool) :
    mmatch (assignGroups j (n + 1)) [] caps k = false := by
  simp [assignGroups, mmatch]

/-- Matching the capture-group block against an input beginning with the
`F`/`T` characters `u`: the groups consume exactly `u`, capturing one
character each, and the match continues with the extended environment. -/
theorem mmatch_assignGroups_exact :
    ∀ (u rest : List Char) (j : Nat) (caps : Captures)
      (k : List Char → Captures → Bool),
    (∀ c ∈ u, c = 'F' ∨ c = 'T') →
    mmatch (assignGroups j u.length) (u ++ rest) caps k
      = k rest (extCaps caps j u)
  | [], rest, j, caps, k, _ => by rw [extCaps_nil]; rfl
  | c :: u', rest, j, caps, k, hFT => by
    have ih := mmatch_assignGroups_exact u' rest (j + 1) (caps.set j [c]) k
      (fun x hx => hFT x (List.mem_cons_of_mem _ hx))
    rw [show (c :: u').length = u'.length + 1 from rfl, List.cons_append,
      mmatch_assignGroups_cons, ih, extCaps_cons]
    rcases hFT c (List.mem_cons_self _ _) with h | h
    · subst h; rw [if_pos rfl, if_neg (by decide), Bool.or_false]
    · subst h; rw [if_neg (by decide), if_pos rfl, Bool.false_or]

/-- Inversion for the capture-group block: a successful match splits the
input into `n` captured `F`/`T` characters and a remainder on which the
continuation succeeded. -/
theorem mmatch_assignGroups_inv :
    ∀ (n j : Nat) (s : List Char) (caps : Captures)
      (k : List Char → Captures → Bool),
    mmatch (assignGroups j n) s caps k = true →
      ∃ u v caps', s = u ++ v ∧ u.length = n ∧
        (∀ c ∈ u, c = 'F' ∨ c = 'T') ∧ k v caps' = true
  | 0, _, s, caps, k, h => ⟨[], s, caps, rfl, rfl, by simp, h⟩
  | n + 1, j, [], caps, k, h => by
    rw [mmatch_assignGroups_nil] at h
    simp at h
  | n + 1, j, c :: s', caps, k, h => by
    rw [mmatch_assignGroups_cons] at h
    rcases Bool.or_eq_true_iff.mp h with h1 | h1
    · by_cases hc : c = 'F'
      · rw [if_pos hc] at h1
        obtain ⟨u', v, caps', rfl, hlen, hFT, hk⟩ :=
          mmatch_assignGroups_inv n (j + 1) s' (caps.set j [c]) k h1
        refine ⟨c :: u', v, caps', rfl, by simp [hlen], ?_, hk⟩
        intro x hx
        rcases List.mem_cons.mp hx with h2 | h2
        · subst h2; exact Or.inl hc
        · exact hFT x h2
      · rw [if_neg hc] at h1
        simp at h1
    · by_cases hc : c = 'T'
      · rw [if_pos hc] at h1
        obtain ⟨u', v, caps', rfl, hlen, hFT, hk⟩ :=
          mmatch_assignGroups_inv n (j + 1) s' (caps.set j [c]) k h1
        refine ⟨c :: u', v, caps', rfl, by simp [hlen], ?_, hk⟩
        intro x hx
        rcases List.mem_cons.mp hx with h2 | h2
        · subst h2; exact Or.inr hc
        · exact hFT x h2
      · rw [if_neg hc] at h1
        simp at h1

/-- One clause alternative matches the marker `FT` exactly when its literal
is true under the captured assignment, consuming the two marker characters
and leaving the captures unchanged. -/
theorem mmatch_termRegex (w : List Char) (l : Int) (hl : l ≠ 0)
    (hrange : l.natAbs ≤ w.length) (rest : List Char)
    (k : List Char → Captures → Bool) :
    mmatch (termRegex l) ('F' :: 'T' :: rest) (extCaps Captures.empty 1 w) k
      = (literalTrue w l && k rest (extCaps Captures.empty 1 w)) := by
  have hv : 1 ≤ l.natAbs := Int.natAbs_pos.mpr hl
  have hcap : extCaps Captures.empty 1 w l.natAbs
      = some [w.getD (l.natAbs - 1) 'F'] := by
    show (if 1 ≤ l.natAbs ∧ l.natAbs < 1 + w.length
          then some [w.getD (l.natAbs - 1) 'F'] else Captures.empty l.natAbs)
        = some [w.getD (l.natAbs - 1) 'F']
    rw [if_pos ⟨hv, by omega⟩]
  by_cases hneg : l < 0
  · have ht : termRegex l = .cat (.backref l.natAbs) (.char 'T') := by
      simp only [termRegex, if_pos hneg]
    have hlit : literalTrue w l = decide (w.getD (l.natAbs - 1) 'F' = 'F') := by
      simp only [literalTrue, if_pos hneg]
    rw [ht, hlit]
    simp only [mmatch, hcap]
    by_cases hx : w.getD (l.natAbs - 1) 'F' = 'F'
    · simp [List.isPrefixOf, hx, mmatch]
    · simp [List.isPrefixOf, hx, mmatch]
  · have h0 : 0 ≤ l := le_of_not_lt hneg
    have hnn : l.toNat = l.natAbs := by
      have h1 := Int.toNat_of_nonneg h0
      have h2 := Int.natAbs_of_nonneg h0
      exact Int.natCast_inj.mp (h1.trans h2.symm)
    have ht : termRegex l = .cat (.char 'F') (.backref l.natAbs) := by
      simp only [termRegex, if_neg hneg, hnn]
    have hlit : literalTrue w l = decide (w.getD (l.natAbs - 1) 'F' = 'T') := by
      simp only [literalTrue, if_neg hneg]
    rw [ht, hlit]
    simp only [mmatch, hcap]
    by_cases hx : w.getD (l.natAbs - 1) 'F' = 'T'
    · simp [List.isPrefixOf, hx, mmatch]
    · simp [List.isPrefixOf, hx, mmatch]

/-- The alternation inside a clause group matches the marker `FT` exactly
when some literal of the clause is true under the captured assignment. -/
theorem mmatch_altList (w : List Char) :
    ∀ (cl : List Int), cl ≠ [] →
    (∀ l ∈ cl, l ≠ 0 ∧ l.natAbs ≤ w.length) →
    ∀ (rest : List Char) (k : List Char → Captures → Bool),
    mmatch (altList (cl.map termRegex)) ('F' :: 'T' :: rest)
        (extCaps Captures.empty 1 w) k
      = (cl.any (literalTrue w) && k rest (extCaps Captures.empty 1 w))
  | [], h, _ => absurd rfl h
  | [l], _, hwf => by
    intro rest k
    have h := hwf l (List.mem_singleton_self l)
    simp only [List.map_cons, List.map_nil, altList]
    rw [mmatch_termRegex w l h.1 h.2]
    simp [List.any_cons]
  | l :: l' :: ls, _, hwf => by
    intro rest k
    have h := hwf l (List.mem_cons_self _ _)
    have ih := mmatch_altList w (l' :: ls) (by simp)
      (fun x hx => hwf x (List.mem_cons_of_mem _ hx)) rest k
    simp only [List.map_cons, altList, mmatch]
    simp only [List.map_cons] at ih
    rw [mmatch_termRegex w l h.1 h.2, ih]
    simp only [List.any_cons, Bool.and_or_distrib_right, Bool.or_assoc]

/-- The comma-joined clause groups consume exactly the marker block, and
the whole chain succeeds iff every clause has a true literal. -/
theorem mmatch_clausesRegex (w : List Char) :
    ∀ (cls : List (List Int)), cls ≠ [] →
    (∀ cl ∈ cls, cl ≠ [] ∧ ∀ l ∈ cl, l ≠ 0 ∧ l.natAbs ≤ w.length) →
    mmatch (clausesRegex cls) (markerChars cls.length)
        (extCaps Captures.empty 1 w) (fun _ _ => true)
      = brute_force_evaluate cls w
  | [], h, _ => absurd rfl h
  | [cl], _, hwf => by
    have h := hwf cl (List.mem_singleton_self cl)
    show mmatch (clauseRegex cl) ('F' :: 'T' :: []) _ _ = _
    simp only [clauseRegex, mmatch]
    rw [mmatch_altList w cl h.1 h.2 [] (fun _ _ => true)]
    simp [brute_force_evaluate]
  | cl :: cl' :: cls, _, hwf => by
    have h := hwf cl (List.mem_cons_self _ _)
    have ih := mmatch_clausesRegex w (cl' :: cls) (by simp)
      (fun x hx => hwf x (List.mem_cons_of_mem _ hx))
    show mmatch
        (.cat (clauseRegex cl) (.cat (.char ',') (clausesRegex (cl' :: cls))))
        ('F' :: 'T' :: ',' :: markerChars ((cl' :: cls).length)) _ _ = _
    simp only [clauseRegex, mmatch]
    rw [mmatch_altList w cl h.1 h.2 (',' :: markerChars ((cl' :: cls).length))]
    simp only [mmatch, if_pos rfl]
    rw [ih]
    simp [brute_force_evaluate]

/-- Every list is a prefix of itself, in executable form. -/
theorem isPrefixOf_self (l : List Char) : l.isPrefixOf l = true :=
  List.isPrefixOf_iff_prefix.mpr (List.prefix_refl l)

/-- Claim C1: for every well-formed formula and every assignment of
matching length over `{F, T}`, `check_sat` on the pattern compiled from
the formula, with `num_clauses = len(clauses)`, returns `true` iff the
assignment satisfies every clause under brute-force CNF evaluation. -/
theorem check_sat_agrees_with_brute_force (num_vars : Nat)
    (clauses : List (List Int)) (A : String)
    (hwf : WFFormula num_vars clauses) (hlen : A.length = num_vars)
    (hFT : ∀ c ∈ A.data, c = 'F' ∨ c = 'T') :
    check_sat A (patternRegex num_vars clauses) clauses.length
      = brute_force_evaluate clauses A.data := by
  obtain ⟨hn, hne, hcl⟩ := hwf
  subst hlen
  simp only [check_sat, reMatch]
  rw [probe_data]
  simp only [patternRegex]
  rw [show A.length = A.data.length from rfl]
  simp only [mmatch]
  rw [mmatch_assignGroups_exact A.data (';' :: markerChars clauses.length) 1
    Captures.empty _ hFT]
  simp only [mmatch]
  simp only [if_true]
  rw [mmatch_strR, if_pos (isPrefixOf_self _)]
  exact mmatch_clausesRegex A.data clauses hne fun cl hcl' =>
    ⟨(hcl cl hcl').1, fun l hl =>
      ⟨fun h0 => by simpa [h0] using ((hcl cl hcl').2 l hl).1,
       ((hcl cl hcl').2 l hl).2⟩⟩

/-- A probe string whose leading `F`/`T` block has the wrong length cannot
clear the capture-group block followed by the literal `;`. -/
theorem mmatch_wrong_length (n j : Nat) (R : Regex) (w rest : List Char)
    (hFT : ∀ c ∈ w, c = 'F' ∨ c = 'T') (hn : w.length ≠ n)
    (caps : Captures) (k : List Char → Captures → Bool) :
    mmatch (.cat (assignGroups j n) (.cat (.char ';') R))
        (w ++ ';' :: rest) caps k = false := by
  cases h : mmatch (.cat (assignGroups j n) (.cat (.char ';') R))
      (w ++ ';' :: rest) caps k with
  | false => rfl
  | true =>
    exfalso
    simp only [mmatch] at h
    obtain ⟨u, v, caps', heq, hulen, huFT, hk⟩ :=
      mmatch_assignGroups_inv n j _ caps _ h
    cases v with
    | nil => simp [mmatch] at hk
    | cons d v' =>
      simp only [mmatch] at hk
      by_cases hd : d = ';'
      · subst hd
        rcases Nat.lt_or_ge w.length n with hlt | hge
        · have hu : u = (w ++ ';' :: rest).take n := by
            rw [heq, ← hulen, List.take_left]
          rw [List.take_append_eq_append_take] at hu
          have h1 : w.take n = w := List.take_of_length_le (le_of_lt hlt)
          have h2 : n - w.length = (n - w.length - 1) + 1 := by omega
          have hmem : ';' ∈ u := by
            rw [hu, h1, h2, List.take_succ_cons]
            exact List.mem_append_right _ (List.mem_cons_self _ _)
          rcases huFT ';' hmem with h3 | h3 <;> exact absurd h3 (by decide)
        · have hgt : n < w.length := lt_of_le_of_ne hge fun h3 => hn h3.symm
          have hw : w = (u ++ ';' :: v').take w.length := by
            rw [← heq, List.take_left]
          rw [List.take_append_eq_append_take] at hw
          have h1 : u.take w.length = u :=
            List.take_of_length_le (by omega)
          have h2 : w.length - u.length = (w.length - u.length - 1) + 1 := by
            omega
          have hmem : ';' ∈ w := by
            rw [hw, h1, h2, List.take_succ_cons]
            exact List.mem_append_right _ (List.mem_cons_self _ _)
          rcases hFT ';' hmem with h3 | h3 <;> exact absurd h3 (by decide)
      · rw [if_neg hd] at hk
        simp at hk

/-- Claim C2, refuted by the code at a concrete input: for the one-clause
formula `[[1]]`, the valid probe string `T;FT` matches, and the probe
`T;FT,FT` — the valid probe with an extra `,FT` appended, carrying two
markers for one clause — still matches.  The emitted lookahead carries no
end anchor (unlike the `(?=FT,FT,FT,FT$)` shown in the docstring of
`construct_pattern`), and `re.match` does not anchor the end of a match,
so the claimed rejection does not happen. -/
theorem extra_marker_probe_still_matches :
    reMatch (patternRegex 1 [[1]]) "T;FT" = true
      ∧ reMatch (patternRegex 1 [[1]]) "T;FT,FT" = true := by
  constructor <;> rfl

/-- Claim C3 counterexample: on a zero literal — a violation of the
Formula invariant — `construct_pattern` does not fail, it returns a
pattern text. -/
theorem construct_pattern_zero_literal_returns_some :
    construct_pattern 1 [[0]] ≠ none := by decide

/-- Claim C3 amended: `construct_pattern` performs no validation of the
Formula invariant.  It fails exactly on an empty clause list (and then
with an unbound-local error on `pattern`, not an `InvalidFormula` error),
and it returns a pattern text for a zero literal, an out-of-range
literal, or an empty clause inside a non-empty clause list. -/
theorem construct_pattern_failure_characterization :
    (∀ (num_vars : Nat) (clauses : List (List Int)),
        construct_pattern num_vars clauses = none ↔ clauses = [])
      ∧ (construct_pattern 1 [[0]]).isSome = true
      ∧ (construct_pattern 1 [[2]]).isSome = true
      ∧ (construct_pattern 1 [[1], []]).isSome = true := by
  refine ⟨fun num_vars clauses => ?_, by decide, by decide, by decide⟩
  cases clauses with
  | nil => simp [construct_pattern]
  | cons cl cls => simp [construct_pattern]

/-- Claim C4: an assignment string over `{F, T}` whose length differs from
the `num_vars` the pattern was built from never makes `check_sat` return
`true` (the Python function raises nothing; the anchored `(F|T)` prefix
and the literal `;` cannot both match, so it returns `False`). -/
theorem check_sat_length_mismatch_never_true (num_vars : Nat)
    (clauses : List (List Int)) (A : String) (_hwf : WFFormula num_vars clauses)
    (hFT : ∀ c ∈ A.data, c = 'F' ∨ c = 'T') (hlen : A.length ≠ num_vars) :
    ¬ (check_sat A (patternRegex num_vars clauses) clauses.length = true) := by
  intro hcon
  simp only [check_sat, reMatch] at hcon
  rw [probe_data] at hcon
  simp only [patternRegex] at hcon
  rw [mmatch_wrong_length num_vars 1 _ A.data _ hFT hlen] at hcon
  exact Bool.noConfusion hcon

theorem check_sat_length_mismatch_never_true_witness :
    WFFormula 1 [[1]]
      ∧ (∀ c ∈ ("FF" : String).data, c = 'F' ∨ c = 'T')
      ∧ ("FF" : String).length ≠ 1
      ∧ ¬ (check_sat "FF" (patternRegex 1 [[1]])
            ([[1]] : List (List Int)).length = true) :=
  ⟨by decide, by decide, by decide,
    check_sat_length_mismatch_never_true 1 [[1]] "FF"
      (by decide) (by decide) (by decide)⟩

/-- Claim C6: `construct_pattern` is deterministic — two calls on
structurally equal input produce identical pattern text. -/
theorem construct_pattern_deterministic (n₁ n₂ : Nat)
    (cs₁ cs₂ : List (List Int)) (hn : n₁ = n₂) (hc : cs₁ = cs₂) :
    construct_pattern n₁ cs₁ = construct_pattern n₂ cs₂ := by
  subst hn; subst hc; rfl

theorem construct_pattern_deterministic_witness :
    (1 : Nat) = 1 ∧ ([[1, -2]] : List (List Int)) = [[1, -2]]
      ∧ construct_pattern 1 [[1, -2]] = construct_pattern 1 [[1, -2]] :=
  ⟨rfl, rfl, construct_pattern_deterministic 1 1 [[1, -2]] [[1, -2]] rfl rfl⟩

/-- Claim C8: for the example formula of the module, checking each of the
8 enumerated assignments against the compiled pattern agrees exactly with
brute-force CNF evaluation, and the assignment `TTT` is classified
UNSAT. -/
theorem example_formula_exhaustive_agreement :
    ((enumerate_assignments 3).map fun a =>
        check_sat a
          (patternRegex 3 [[1, 2, -3], [1, -2, 3], [-1, -2, 3], [-1, -2, -3]]) 4)
      = ((enumerate_assignments 3).map fun a =>
        brute_force_evaluate [[1, 2, -3], [1, -2, 3], [-1, -2, 3], [-1, -2, -3]]
          a.data)
      ∧ check_sat "TTT"
          (patternRegex 3 [[1, 2, -3], [1, -2, 3], [-1, -2, 3], [-1, -2, -3]]) 4
        = false := by
  constructor <;> rfl

/-- Claim C9: the degenerate formula with one variable and the single unit
clause `[1]` classifies assignment `T` as SAT and `F` as UNSAT. -/
theorem unit_formula_classification :
    check_sat "T" (patternRegex 1 [[1]]) 1 = true
      ∧ check_sat "F" (patternRegex 1 [[1]]) 1 = false := by
  constructor <;> rfl

theorem check_sat_agrees_with_brute_force_witness :
    WFFormula 2 [[1, -2], [2]]
      ∧ ("TF" : String).length = 2
      ∧ (∀ c ∈ ("TF" : String).data, c = 'F' ∨ c = 'T')
      ∧ check_sat "TF" (patternRegex 2 [[1, -2], [2]])
            ([[1, -2], [2]] : List (List Int)).length
          = brute_force_evaluate [[1, -2], [2]] ("TF" : String).data :=
  ⟨by decide, by decide, by decide,
    check_sat_agrees_with_brute_force 2 [[1, -2], [2]] "TF"
      (by decide) (by decide) (by decide)⟩

/-- Claim C10: for a pattern built from a well-formed formula, an
assignment string over `{F, T}` of the wrong length makes `check_sat`
return `false` without raising. -/
theorem check_sat_alphabet_length_mismatch_false (num_vars : Nat)
    (clauses : List (List Int)) (A : String) (_hwf : WFFormula num_vars clauses)
    (hFT : ∀ c ∈ A.data, c = 'F' ∨ c = 'T') (hlen : A.length ≠ num_vars) :
    check_sat A (patternRegex num_vars clauses) clauses.length = false := by
  simp only [check_sat, reMatch]
  rw [probe_data]
  simp only [patternRegex]
  exact mmatch_wrong_length num_vars 1 _ A.data _ hFT hlen _ _

theorem check_sat_alphabet_length_mismatch_false_witness :
    WFFormula 2 [[1, 2]]
      ∧ (∀ c ∈ ("T" : String).data, c = 'F' ∨ c = 'T')
      ∧ ("T" : String).length ≠ 2
      ∧ check_sat "T" (patternRegex 2 [[1, 2]])
          ([[1, 2]] : List (List Int)).length = false :=
  ⟨by decide, by decide, by decide,
    check_sat_alphabet_length_mismatch_false 2 [[1, 2]] "T"
      (by decide) (by decide) (by decide)⟩

/-- The fuel-based digit list of `0` is empty for any fuel. -/
theorem natBitsCore_zero : ∀ f : Nat, natBitsCore f 0 = []
  | 0 => rfl
  | _ + 1 => by simp [natBitsCore]

/-- The fuel argument of `natBitsCore` is irrelevant once sufficient. -/
theorem natBitsCore_fuel :
    ∀ (f₁ f₂ n : Nat), n ≤ f₁ → n ≤ f₂ → natBitsCore f₁ n = natBitsCore f₂ n
  | 0, f₂, n, h1, _ => by
    obtain rfl : n = 0 := by omega
    rw [natBitsCore_zero, natBitsCore_zero]
  | f₁ + 1, f₂, n, h1, h2 => by
    by_cases hn : n = 0
    · subst hn
      rw [natBitsCore_zero, natBitsCore_zero]
    · cases f₂ with
      | zero => omega
      | succ f₂' =>
        simp only [natBitsCore, if_neg hn]
        rw [natBitsCore_fuel f₁ f₂' (n / 2) (by omega) (by omega)]

/-- Recurrence for the binary digits of a positive number. -/
theorem natBits_succ (n : Nat) (hn : 1 ≤ n) :
    natBits n = natBits (n / 2) ++ [if n % 2 = 1 then '1' else '0'] := by
  cases n with
  | zero => omega
  | succ m =>
    show natBitsCore (m + 1) (m + 1) = _
    simp only [natBitsCore, if_neg (Nat.succ_ne_zero m)]
    rw [natBitsCore_fuel m ((m + 1) / 2) ((m + 1) / 2) (by omega) le_rfl]
    rfl

/-- The `n`-bit encoding of `0` is all zeros. -/
theorem encodeBits_zero : ∀ n : Nat, encodeBits n 0 = List.replicate n '0'
  | 0 => rfl
  | n + 1 => by
    show encodeBits n (0 / 2) ++ [if 0 % 2 = 1 then '1' else '0']
        = List.replicate (n + 1) '0'
    rw [Nat.zero_div, encodeBits_zero n, List.replicate_succ']
    rfl

/-- The `n`-bit encoding has length `n`. -/
theorem encodeBits_length : ∀ n i : Nat, (encodeBits n i).length = n
  | 0, _ => rfl
  | n + 1, i => by simp [encodeBits, encodeBits_length n]

/-- The `n`-bit encoding uses only the digits `0` and `1`. -/
theorem encodeBits_mem : ∀ (n i : Nat), ∀ c ∈ encodeBits n i, c = '0' ∨ c = '1'
  | 0, _, c, hc => absurd hc (by simp [encodeBits])
  | n + 1, i, c, hc => by
    simp only [encodeBits, List.mem_append, List.mem_singleton] at hc
    rcases hc with hc | hc
    · exact encodeBits_mem n (i / 2) c hc
    · subst hc
      by_cases h : i % 2 = 1 <;> simp [h]

/-- For `1 ≤ i < 2 ^ n`, left-padding the binary digits of `i` with zeros
to width `n` gives the `n`-bit encoding. -/
theorem padded_natBits :
    ∀ (n i : Nat), 1 ≤ i → i < 2 ^ n →
    List.replicate (n - (natBits i).length) '0' ++ natBits i = encodeBits n i
  | 0, i, h1, h2 => by simp at h2; omega
  | n + 1, i, h1, h2 => by
    by_cases hi : i = 1
    · subst hi
      rw [show natBits 1 = ['1'] from rfl]
      simp only [List.length_singleton, Nat.add_sub_cancel]
      rw [show encodeBits (n + 1) 1 = encodeBits n 0 ++ ['1'] from rfl,
        encodeBits_zero]
    · have h2i : 2 ≤ i := by omega
      have hdiv : i / 2 < 2 ^ n := by
        have hp : (2 : Nat) ^ (n + 1) = 2 * 2 ^ n := by ring
        exact Nat.div_lt_of_lt_mul (hp ▸ h2)
      have hrec := padded_natBits n (i / 2) (by omega) hdiv
      rw [natBits_succ i (by omega)]
      simp only [List.length_append, List.length_singleton]
      have hL : n + 1 - ((natBits (i / 2)).length + 1)
          = n - (natBits (i / 2)).length := by omega
      rw [hL, ← List.append_assoc, hrec]
      rfl

/-- Characters of `int_to_binary_string` below the width bound. -/
theorem int_to_binary_string_data (n i : Nat) (hn : 1 ≤ n) (hi : i < 2 ^ n) :
    (int_to_binary_string i n).data = encodeBits n i := by
  by_cases h0 : i = 0
  · subst h0
    have he : int_to_binary_string 0 n
        = ⟨List.replicate (n - 1) '0' ++ ['0']⟩ := rfl
    rw [he, encodeBits_zero]
    show List.replicate (n - 1) '0' ++ ['0'] = List.replicate n '0'
    conv_rhs => rw [show n = (n - 1) + 1 from by omega, List.replicate_succ']
  · simp only [int_to_binary_string]
    rw [if_neg h0]
    exact padded_natBits n i (by omega) hi

/-- The enumerated assignments are exactly the `{F, T}` encodings of
`0, 1, ..., 2 ^ n - 1` in order. -/
theorem enumerate_assignments_eq (n : Nat) (hn : 1 ≤ n) :
    enumerate_assignments n
      = (List.range (2 ^ n)).map fun i => (⟨ftBits n i⟩ : String) := by
  unfold enumerate_assignments
  apply List.map_congr_left
  intro i hi
  have hi' : i < 2 ^ n := List.mem_range.mp hi
  apply strExt
  show ((int_to_binary_string i n).data.map fun c => if c = '0' then 'F' else c).map
      (fun c => if c = '1' then 'T' else c) = ftBits n i
  rw [int_to_binary_string_data n i hn hi', List.map_map]
  rfl

/-- Folding the binary value over the `{F, T}` encoding recovers the
encoded number below any accumulated prefix. -/
theorem foldl_ftBits :
    ∀ (n i a : Nat), i < 2 ^ n →
    List.foldl (fun x c => 2 * x + (if c = 'T' then 1 else 0)) a (ftBits n i)
      = a * 2 ^ n + i
  | 0, i, a, h => by
    obtain rfl : i = 0 := by simp at h; omega
    simp [ftBits, encodeBits]
  | n + 1, i, a, h => by
    have hdiv : i / 2 < 2 ^ n := by
      have hp : (2 : Nat) ^ (n + 1) = 2 * 2 ^ n := by ring
      exact Nat.div_lt_of_lt_mul (hp ▸ h)
    have ih := foldl_ftBits n (i / 2) a hdiv
    simp only [ftBits] at ih ⊢
    show List.foldl _ a
        ((encodeBits n (i / 2) ++ [if i % 2 = 1 then '1' else '0']).map digitFT)
      = a * 2 ^ (n + 1) + i
    rw [List.map_append, List.foldl_append, ih]
    simp only [List.map_cons, List.map_nil, List.foldl_cons, List.foldl_nil]
    have hdm : 2 * (i / 2) + i % 2 = i := Nat.div_add_mod i 2
    have hp : (2 : Nat) ^ (n + 1) = 2 * 2 ^ n := by ring
    rw [hp]
    by_cases hb : i % 2 = 1
    · rw [hb, show (if digitFT (if 1 = 1 then '1' else '0') = 'T'
          then (1 : Nat) else 0) = 1 from rfl]
      conv_rhs => rw [← hdm, hb]
      ring
    · have hb0 : i % 2 = 0 := by omega
      rw [hb0, show (if digitFT (if 0 = 1 then '1' else '0') = 'T'
          then (1 : Nat) else 0) = 0 from rfl]
      conv_rhs => rw [← hdm, hb0]
      ring

/-- Decoding inverts the `{F, T}` encoding below the range bound. -/
theorem decodeFT_ftBits (n i : Nat) (hi : i < 2 ^ n) :
    decodeFT (ftBits n i) = i := by
  have h := foldl_ftBits n i 0 hi
  simpa [decodeFT] using h

/-- The `{F, T}` encoding has length `n`. -/
theorem ftBits_length (n i : Nat) : (ftBits n i).length = n := by
  simp [ftBits, encodeBits_length]

/-- The `{F, T}` encoding uses only the characters `F` and `T`. -/
theorem ftBits_mem (n i : Nat) : ∀ c ∈ ftBits n i, c = 'F' ∨ c = 'T' := by
  intro c hc
  obtain ⟨d, hd, rfl⟩ := List.mem_map.mp hc
  rcases encodeBits_mem n i d hd with h | h <;> subst h
  · exact Or.inl rfl
  · exact Or.inr rfl

/-- Every `{F, T}` string is the encoding of its decoded value, which lies
below `2 ^ length`. -/
theorem ftBits_decodeFT (w : List Char) (hFT : ∀ c ∈ w, c = 'F' ∨ c = 'T') :
    decodeFT w < 2 ^ w.length ∧ ftBits w.length (decodeFT w) = w := by
  induction w using List.reverseRecOn with
  | nil => exact ⟨by simp [decodeFT], rfl⟩
  | append_singleton u c ih =>
    have hu := ih fun x hx => hFT x (List.mem_append_left _ hx)
    have hc := hFT c (List.mem_append_right _ (List.mem_singleton_self c))
    have hdec : decodeFT (u ++ [c])
        = 2 * decodeFT u + (if c = 'T' then 1 else 0) := by
      simp [decodeFT, List.foldl_append]
    have hlen : (u ++ [c]).length = u.length + 1 := by simp
    have hpow : (2 : Nat) ^ (u.length + 1) = 2 * 2 ^ u.length := by ring
    constructor
    · rw [hdec, hlen, hpow]
      have h1 := hu.1
      by_cases hcT : c = 'T' <;> simp [hcT] <;> omega
    · rw [hdec, hlen]
      by_cases hcT : c = 'T'
      · subst hcT
        simp only [if_pos rfl]
        have hdiv : (2 * decodeFT u + 1) / 2 = decodeFT u := by omega
        have hmod : (2 * decodeFT u + 1) % 2 = 1 := by omega
        show (encodeBits u.length ((2 * decodeFT u + 1) / 2)
            ++ [if (2 * decodeFT u + 1) % 2 = 1 then '1' else '0']).map digitFT
          = u ++ ['T']
        rw [hdiv, hmod]
        simp only [if_pos rfl, List.map_append, List.map_cons, List.map_nil]
        have h2 := hu.2
        simp only [ftBits] at h2
        rw [h2]
        rfl
      · have hcF : c = 'F' := by
          rcases hc with h | h
          · exact h
          · exact absurd h hcT
        subst hcF
        simp only [if_neg (by decide : ¬('F' = 'T'))]
        have hdiv : (2 * decodeFT u + 0) / 2 = decodeFT u := by omega
        have hmod : (2 * decodeFT u + 0) % 2 = 0 := by omega
        show (encodeBits u.length ((2 * decodeFT u + 0) / 2)
            ++ [if (2 * decodeFT u + 0) % 2 = 1 then '1' else '0']).map digitFT
          = u ++ ['F']
        rw [hdiv, hmod]
        simp only [if_neg (by decide : ¬((0 : Nat) = 1)), List.map_append,
          List.map_cons, List.map_nil]
        have h2 := hu.2
        simp only [ftBits] at h2
        rw [h2]
        rfl

/-- Claim C5: for `num_vars = n ≥ 1`, `enumerate_assignments n` yields
exactly `2 ^ n` strings of length `n` over `{F, T}`, pairwise distinct,
covering every combination exactly once, in strictly ascending binary
order — position `i` holds exactly the string that encodes `i` in binary
with `F` = 0-bit, `T` = 1-bit, most significant bit first (variable 1). -/
theorem enumerate_assignments_complete (n : Nat) (hn : 1 ≤ n) :
    (enumerate_assignments n).length = 2 ^ n
      ∧ (∀ w ∈ enumerate_assignments n,
          w.length = n ∧ ∀ c ∈ w.data, c = 'F' ∨ c = 'T')
      ∧ (enumerate_assignments n).Nodup
      ∧ (∀ w : String, w.length = n → (∀ c ∈ w.data, c = 'F' ∨ c = 'T') →
          w ∈ enumerate_assignments n)
      ∧ ∀ (i : Nat) (hi : i < (enumerate_assignments n).length),
          decodeFT ((enumerate_assignments n).get ⟨i, hi⟩).data = i := by
  rw [enumerate_assignments_eq n hn]
  refine ⟨by simp, ?_, ?_, ?_, ?_⟩
  · intro w hw
    obtain ⟨i, hi, rfl⟩ := List.mem_map.mp hw
    exact ⟨ftBits_length n i, ftBits_mem n i⟩
  · refine List.Nodup.map_on ?_ (List.nodup_range _)
    intro x hx y hy hxy
    have hx' : x < 2 ^ n := List.mem_range.mp hx
    have hy' : y < 2 ^ n := List.mem_range.mp hy
    have hdata : ftBits n x = ftBits n y := congrArg String.data hxy
    calc x = decodeFT (ftBits n x) := (decodeFT_ftBits n x hx').symm
    _ = decodeFT (ftBits n y) := by rw [hdata]
    _ = y := decodeFT_ftBits n y hy'
  · intro w hwlen hwFT
    obtain ⟨d⟩ := w
    have hd := ftBits_decodeFT d hwFT
    have hdlen : d.length = n := hwlen
    refine List.mem_map.mpr ⟨decodeFT d, List.mem_range.mpr ?_, ?_⟩
    · rw [← hdlen]
      exact hd.1
    · apply strExt
      show ftBits n (decodeFT d) = d
      rw [← hdlen]
      exact hd.2
  · intro i hi
    have hi2 : i < 2 ^ n := by
      simpa using hi
    have hget : ((List.range (2 ^ n)).map fun j => (⟨ftBits n j⟩ : String)).get
        ⟨i, hi⟩ = ⟨ftBits n i⟩ := by
      simp [List.get_eq_getElem, List.getElem_map, List.getElem_range]
    rw [hget]
    exact decodeFT_ftBits n i hi2

theorem enumerate_assignments_complete_witness :
    1 ≤ 2
      ∧ ((enumerate_assignments 2).length = 2 ^ 2
      ∧ (∀ w ∈ enumerate_assignments 2,
          w.length = 2 ∧ ∀ c ∈ w.data, c = 'F' ∨ c = 'T')
      ∧ (enumerate_assignments 2).Nodup
      ∧ (∀ w : String, w.length = 2 → (∀ c ∈ w.data, c = 'F' ∨ c = 'T') →
          w ∈ enumerate_assignments 2)
      ∧ ∀ (i : Nat) (hi : i < (enumerate_assignments 2).length),
          decodeFT ((enumerate_assignments 2).get ⟨i, hi⟩).data = i) :=
  ⟨by decide, enumerate_assignments_complete 2 (by decide)⟩

/-- Folding string concatenation from an accumulated prefix. -/
theorem strFoldlAppend :
    ∀ (l : List String) (a b : String),
    List.foldl (· ++ ·) (a ++ b) l = a ++ List.foldl (· ++ ·) b l
  | [], _, _ => rfl
  | s :: l, a, b => by
    show List.foldl (· ++ ·) (a ++ b ++ s) l = a ++ List.foldl (· ++ ·) (b ++ s) l
    rw [String.append_assoc]
    exact strFoldlAppend l a (b ++ s)

/-- Unfolding `String.join` on a cons cell. -/
theorem strJoin_cons (a : String) (l : List String) :
    String.join (a :: l) = a ++ String.join l := by
  show List.foldl (· ++ ·) ("" ++ a) l = a ++ List.foldl (· ++ ·) "" l
  have h : ("" : String) ++ a = a ++ "" := by
    apply strExt
    show ([] : List Char) ++ a.data = a.data ++ []
    simp
  rw [h]
  exact strFoldlAppend l a ""

/-- Joining `n` copies of a string is `n`-fold repetition. -/
theorem strJoin_replicate :
    ∀ (n : Nat) (s : String), String.join (List.replicate n s) = strMul s n
  | 0, _ => rfl
  | n + 1, s => by
    rw [List.replicate_succ, strJoin_cons, strJoin_replicate n s]
    rfl

/-- Claim C7: for every well-formed formula, the text returned by
`construct_pattern` is exactly the reference construction of the spec:
`^`, `num_vars` copies of `(F|T)`, a literal `;`, the lookahead with
`len(clauses)` comma-joined `FT` markers, then the non-capturing clause
groups joined by commas, with `F\v` for a positive and `\vT` for a
negative literal, in original order. -/
theorem construct_pattern_matches_reference_text (num_vars : Nat)
    (clauses : List (List Int)) (hwf : WFFormula num_vars clauses) :
    construct_pattern num_vars clauses = some (spec_pattern num_vars clauses) := by
  obtain ⟨-, hne, -⟩ := hwf
  cases clauses with
  | nil => exact absurd rfl hne
  | cons cl cls =>
    show some (patternText num_vars ((cl :: cls).map clause_pattern)) = _
    unfold patternText spec_pattern
    rw [strJoin_replicate, List.map_const', List.length_range, List.length_map]
    rfl

theorem construct_pattern_matches_reference_text_witness :
    WFFormula 3 [[1, 2, -3], [1, -2, 3], [-1, -2, 3], [-1, -2, -3]]
      ∧ construct_pattern 3 [[1, 2, -3], [1, -2, 3], [-1, -2, 3], [-1, -2, -3]]
        = some (spec_pattern 3 [[1, 2, -3], [1, -2, 3], [-1, -2, 3], [-1, -2, -3]]) :=
  ⟨by decide,
    construct_pattern_matches_reference_text 3
      [[1, 2, -3], [1, -2, 3], [-1, -2, 3], [-1, -2, -3]] (by decide)⟩

/-- The capture-group block denotes the repeated `(F|T)` text. -/
theorem render_assignGroups :
    ∀ (j n : Nat), render (assignGroups j n) = strMul "(F|T)" n
  | _, 0 => rfl
  | j, n + 1 => by
    rw [show render (assignGroups j (n + 1))
        = "(F|T)" ++ render (assignGroups (j + 1) n) from rfl,
      render_assignGroups (j + 1) n]
    rfl

/-- A literal-character chain denotes its character string. -/
theorem render_strR : ∀ u : List Char, render (strR u) = ⟨u⟩
  | [] => rfl
  | c :: u => by
    show String.singleton c ++ render (strR u) = ⟨c :: u⟩
    rw [render_strR u]
    apply strExt
    show [c] ++ u = c :: u
    rfl

/-- One clause alternative denotes its `clauseTerm` text. -/
theorem render_termRegex (l : Int) : render (termRegex l) = clauseTerm l := by
  by_cases h : l < 0
  · simp only [termRegex, clauseTerm, if_pos h]
    show "\\" ++ toString l.natAbs ++ String.singleton 'T'
        = "\\" ++ toString l.natAbs ++ "T"
    rfl
  · have h0 : (0 : Int) ≤ l := le_of_not_lt h
    obtain ⟨m, rfl⟩ := Int.eq_ofNat_of_zero_le h0
    simp only [termRegex, clauseTerm, if_neg h]
    show String.singleton 'F' ++ ("\\" ++ toString (Int.ofNat m).toNat)
        = "F\\" ++ toString (Int.ofNat m)
    apply strExt
    show ['F'] ++ ("\\".data ++ (Nat.repr m).data)
        = "F\\".data ++ (Nat.repr m).data
    rfl

/-- The alternation of a clause denotes the `|`-joined term texts. -/
theorem render_altList :
    ∀ cl : List Int,
    render (altList (cl.map termRegex)) = pyJoin "|" (cl.map clauseTerm)
  | [] => rfl
  | [l] => by
    show render (termRegex l) = pyJoin "|" [clauseTerm l]
    rw [render_termRegex l]
    rfl
  | l :: l' :: ls => by
    show render (termRegex l) ++ "|" ++ render (altList ((l' :: ls).map termRegex))
        = pyJoin "|" ((l :: l' :: ls).map clauseTerm)
    rw [render_termRegex l, render_altList (l' :: ls)]
    rfl

/-- One clause group denotes its `clause_pattern` text. -/
theorem render_clauseRegex (cl : List Int) :
    render (clauseRegex cl) = clause_pattern cl := by
  show "(?:" ++ render (altList (cl.map termRegex)) ++ ")" = clause_pattern cl
  rw [render_altList]
  rfl

/-- The clause chain denotes the comma-joined clause group texts. -/
theorem render_clausesRegex :
    ∀ cls : List (List Int),
    render (clausesRegex cls) = pyJoin "," (cls.map clause_pattern)
  | [] => rfl
  | [cl] => by
    show render (clauseRegex cl) = pyJoin "," [clause_pattern cl]
    rw [render_clauseRegex cl]
    rfl
  | cl :: cl' :: cls => by
    show render (clauseRegex cl)
          ++ (String.singleton ',' ++ render (clausesRegex (cl' :: cls)))
        = pyJoin "," ((cl :: cl' :: cls).map clause_pattern)
    rw [render_clauseRegex cl, render_clausesRegex (cl' :: cls),
      show String.singleton ',' = "," from rfl, ← String.append_assoc]
    rfl

/-- The pattern syntax tree used by the matcher denotes, character for
character, the text emitted by `construct_pattern` (the leading `^` is the
start anchor that `reMatch` makes implicit). -/
theorem construct_pattern_eq_render (num_vars : Nat)
    (clauses : List (List Int)) (hne : clauses ≠ []) :
    construct_pattern num_vars clauses
      = some ("^" ++ render (patternRegex num_vars clauses)) := by
  cases clauses with
  | nil => exact absurd rfl hne
  | cons cl cls =>
    show some (patternText num_vars ((cl :: cls).map clause_pattern)) = _
    refine congrArg some ?_
    simp only [patternRegex, render, render_assignGroups, render_strR,
      render_clausesRegex]
    rw [show String.singleton ';' = ";" from rfl]
    simp only [patternText]
    rw [List.map_const', List.length_range, List.length_map]
    have hm : pyJoin "," (List.replicate (cl :: cls).length "FT")
        = ⟨markerChars (cl :: cls).length⟩ :=
      strExt (data_pyJoin_replicate_FT _)
    rw [← hm]
    apply strExt
    simp [String.data_append, List.append_assoc]
